/-
Verification of the type-interning registry in `numba/abstracttypes.py`.

The Python module maintains a process-wide registry (`_typecache`) mapping
weak references of type descriptors to themselves, keyed by descriptor
equality (same concrete class and equal `key`).  Construction goes through
`_TypeMetaclass.__call__`: a provisional instance is built, looked up in
the registry, and either discarded in favour of the live canonical one or
finalized (assigned the next `_autoincr` code, registered, `post_init`).
When the last external reference to a canonical instance dies, the weakref
callback `_on_type_disposal` purges its registry entry.

We embed this as an explicit state machine.  Python object identities are
modelled as natural-number ids drawn from a fresh-id counter; the weakref
dictionary is an association list from descriptor keys (class identity +
key value) to the id of the live canonical instance; garbage collection of
an instance (all external owners gone plus a collection pass) is an
explicit `dispose` event that removes the instance from the live set and
runs the weakref callback.
-/
import Mathlib

set_option maxHeartbeats 1000000

/-- Association-list lookup: first value bound to key `a`, mirroring a
Python dict lookup on our list model. -/
def assocFind {α β : Type} [DecidableEq α] (l : List (α × β)) (a : α) : Option β :=
  (l.find? (fun p => decide (p.1 = a))).map (fun p => p.2)

/-- The constructor-derived identity of a type descriptor: the concrete
class (`self.__class__`, identified by a numeric class tag) together with
the value of the `key` property used by `__eq__` and `__hash__`. -/
structure TypeKey where
  variant : Nat
  keyval : Nat
deriving DecidableEq, Repr

/-- A finalized (canonical) type descriptor: its key and the `_code`
assigned by `_autoincr` at interning time. -/
structure TypeInst where
  key : TypeKey
  code : Nat
deriving DecidableEq, Repr

/-- Four billion types should be enough: `assert n < 2 ** 32`. -/
def typecodeCeiling : Nat := 2 ^ 32

/-- `_autoincr`: draw the next counter value `n`; the assertion
`n < 2 ** 32` becomes failure (`none`) at the ceiling. -/
def autoincr (n : Nat) : Option Nat :=
  if n < typecodeCeiling then some n else none

/-- Global interning state: the `_typecodes` counter, a fresh-object-id
counter standing for Python object identity, the append-only history of
finalized instances (newest first), the set of live (externally reachable)
canonical instances, and `_typecache` as key-to-id entries. -/
structure Registry where
  nextCode : Nat
  nextId : Nat
  insts : List (Nat × TypeInst)
  live : List Nat
  cache : List (TypeKey × Nat)
deriving DecidableEq, Repr

def initRegistry : Registry := ⟨0, 0, [], [], []⟩

/-- `_typecache.get(wr)`: look up the canonical instance for a key.  Two
live weakrefs compare equal exactly when their referents do (same class,
equal key), so the dict is effectively keyed by `TypeKey`. -/
def Registry.lookup (s : Registry) (k : TypeKey) : Option Nat :=
  assocFind s.cache k

/-- Recover the finalized descriptor carried by an instance id. -/
def Registry.findInst (s : Registry) (id : Nat) : Option TypeInst :=
  assocFind s.insts id

/-- The state after the provisional instance (id `s.nextId`, key `k`) is
finalized: `inst._code = _autoincr()` draws `s.nextCode`, the instance is
registered in `_typecache` and handed to the external owner. -/
def internedState (s : Registry) (k : TypeKey) : Registry :=
  ⟨s.nextCode + 1, s.nextId + 1,
   (s.nextId, ⟨k, s.nextCode⟩) :: s.insts,
   s.nextId :: s.live,
   (k, s.nextId) :: s.cache⟩

/-- The else-branch of `_TypeMetaclass.__call__`: the provisional instance
becomes canonical, or construction aborts fatally on the assertion. -/
def Registry.intern (s : Registry) (k : TypeKey) : Option (Nat × Registry) :=
  match autoincr s.nextCode with
  | none => none
  | some _ => some (s.nextId, internedState s k)

/-- `_TypeMetaclass.__call__`: build a provisional instance with key `k`,
look it up; if a live canonical instance exists (`orig is not None`),
discard the provisional one and return it; otherwise intern the
provisional instance.  Returns the id of the resulting instance, or `none`
on a fatal `_autoincr` assertion. -/
def Registry.construct (s : Registry) (k : TypeKey) : Option (Nat × Registry) :=
  match s.lookup k with
  | some orig =>
      if orig ∈ s.live then
        some (orig, { s with nextId := s.nextId + 1 })
      else
        s.intern k
  | none => s.intern k

/-- All external owners of instance `id` release it and a collection pass
runs: the instance leaves the live set and the weakref callback
`_on_type_disposal` pops its `_typecache` entry. -/
def Registry.dispose (s : Registry) (id : Nat) : Registry :=
  { s with
    live := s.live.erase id,
    cache := s.cache.filter (fun p => decide (p.2 ≠ id)) }

/-- The external events the registry reacts to. -/
inductive Event where
  | construct (k : TypeKey)
  | dispose (id : Nat)
deriving DecidableEq, Repr

/-- One event.  A fatally failing construction leaves the state unchanged
(the process aborts; no registry mutation is observable). -/
def Registry.step (s : Registry) (e : Event) : Registry :=
  match e with
  | .construct k =>
      match s.construct k with
      | some (_, s') => s'
      | none => s
  | .dispose id => s.dispose id

/-- Run a list of events from a given state. -/
def Registry.runFrom (s : Registry) (es : List Event) : Registry :=
  es.foldl Registry.step s

/-- Run a list of events from the pristine registry. -/
def Registry.run (es : List Event) : Registry :=
  Registry.runFrom initRegistry es

/-- `Type.__eq__`: `self.__class__ is other.__class__ and self.key == other.key`. -/
def type_eq (a b : TypeKey) : Bool :=
  decide (a.variant = b.variant) && decide (a.keyval = b.keyval)

/-- `Type.__hash__`: `hash(self.key)`.  The Python `hash` function is an
arbitrary map on key values, passed in as a parameter `h`. -/
def type_hash (h : Nat → Nat) (a : TypeKey) : Nat :=
  h a.keyval

/-- `Type.__ne__`: `not (self == other)`. -/
def type_ne (a b : TypeKey) : Bool :=
  !(type_eq a b)

/-- A Python slice object as consumed by `_determine_array_spec`: only its
`step` attribute is read, and a slice built without a step has `step = None`. -/
structure Slice where
  start : Option Int
  stop : Option Int
  step : Option Int
deriving DecidableEq, Repr

/-- Array memory-layout tags. -/
inductive Layout where
  | C
  | F
  | A
deriving DecidableEq, Repr

/-- The index argument passed to `Type.__getitem__`: a single slice, a
tuple (or list) of slices, or anything else. -/
inductive IndexArg where
  | single (s : Slice)
  | tupleOf (l : List Slice)
  | other
deriving DecidableEq, Repr

/-- `Type._determine_array_spec`.  A tuple/list has `ndim = len(args)` and
its layout read off `args[0].step` and `args[-1].step` (an empty tuple
raises IndexError, modelled as `none`); a single slice is rank 1 with C
layout exactly for `step == 1`; any other argument is rank 1, layout A. -/
def determine_array_spec : IndexArg → Option (Nat × Layout)
  | .tupleOf l =>
      match l.head?, l.getLast? with
      | some first, some last =>
          some (l.length,
            if first.step = some 1 then Layout.F
            else if last.step = some 1 then Layout.C
            else Layout.A)
      | _, _ => none
  | .single s =>
      some (1, if s.step = some 1 then Layout.C else Layout.A)
  | .other => some (1, Layout.A)

/-- The request `Type.__getitem__` hands to the external `Array`
constructor: `Array(dtype=self, ndim=ndim, layout=layout)`.  `Array` itself
lives outside this module and is interned through the same metaclass. -/
structure ArrayReq where
  dtype : TypeKey
  ndim : Nat
  layout : Layout
deriving DecidableEq, Repr

/-- `Type.__getitem__`: compute the array spec and build the `Array`
construction request with this descriptor as dtype. -/
def type_getitem (self : TypeKey) (args : IndexArg) : Option ArrayReq :=
  (determine_array_spec args).map (fun p => ⟨self, p.1, p.2⟩)

/-- An argument passed to `Type.__call__`: either a `Type` instance
(`isinstance(args[0], Type)` is true) or any other Python value. -/
inductive PyVal where
  | typ (k : TypeKey)
  | nontyp (v : Nat)
deriving DecidableEq, Repr

/-- `isinstance(x, Type)`. -/
def is_type : PyVal → Bool
  | .typ _ => true
  | .nontyp _ => false

/-- What `Type.__call__` returns: either the delegation
`self.cast_python_value(args[0])` or the external call
`signature(self, *args)` (return type first, then the parameter list). -/
inductive CallResult where
  | cast (v : Nat)
  | sig (ret : TypeKey) (params : List PyVal)
deriving DecidableEq, Repr

/-- `Type.__call__`: with exactly one argument that is not a `Type`,
delegate to `cast_python_value`; otherwise build `signature(self, *args)`. -/
def type_call (self : TypeKey) (args : List PyVal) : CallResult :=
  match args with
  | [PyVal.nontyp v] => CallResult.cast v
  | _ => CallResult.sig self args

/-- The state of an `IteratorType` instance after `IteratorType.__init__`:
`self` is an object id, the init stores `self._iterator_type = self` before
delegating to the superclass init that records the name.  `yield_type` is
the abstract property a concrete subclass supplies. -/
structure IteratorTypeObj where
  self : Nat
  name : Nat
  iteratorTypeField : Nat
  yieldType : TypeKey
deriving DecidableEq, Repr

/-- `IteratorType.__init__(self, name, ...)`. -/
def iteratorType_init (self : Nat) (name : Nat) (yld : TypeKey) : IteratorTypeObj :=
  ⟨self, name, self, yld⟩

/-- The `iterator_type` property of `IteratorType`: returns
`self._iterator_type`. -/
def iterator_type (t : IteratorTypeObj) : Nat :=
  t.iteratorTypeField

/-- A family of pairwise-distinct constructor keys used to simulate
distinct-key construction requests against the code ceiling. -/
def freshKey (n : Nat) : TypeKey := ⟨0, n⟩

/-- Run `n` distinct-key construction requests from the pristine registry,
the i-th requesting `freshKey i`. -/
def runFresh : Nat → Registry
  | 0 => initRegistry
  | n + 1 => (runFresh n).step (Event.construct (freshKey n))

/-- The interning invariant: codes and ids stay below their counters,
finalization history carries strictly decreasing codes from newest to
oldest, live instances are registered with their key, cache entries point
at live instances bearing the entry's key, and the cache holds at most one
entry per key. -/
structure RegInv (s : Registry) : Prop where
  codes_lt : ∀ p ∈ s.insts, p.2.code < s.nextCode
  ids_lt : ∀ p ∈ s.insts, p.1 < s.nextId
  insts_anti : s.insts.Pairwise (fun a b => b.2.code < a.2.code)
  insts_nodup : (s.insts.map Prod.fst).Nodup
  live_nodup : s.live.Nodup
  live_lt : ∀ id ∈ s.live, id < s.nextId
  live_insts : ∀ id ∈ s.live, ∃ t, s.findInst id = some t
  cache_live : ∀ p ∈ s.cache, p.2 ∈ s.live
  cache_key : ∀ p ∈ s.cache, ∃ t, s.findInst p.2 = some t ∧ t.key = p.1
  live_cached : ∀ id ∈ s.live, ∀ t, s.findInst id = some t → (t.key, id) ∈ s.cache
  cache_nodup : (s.cache.map Prod.fst).Nodup

theorem assocFind_nil {α β : Type} [DecidableEq α] (a : α) :
    assocFind ([] : List (α × β)) a = none := rfl

theorem assocFind_cons_self {α β : Type} [DecidableEq α] (l : List (α × β)) (a : α) (b : β) :
    assocFind ((a, b) :: l) a = some b := by
  simp [assocFind, List.find?]

theorem assocFind_cons_ne {α β : Type} [DecidableEq α] (l : List (α × β)) (a a' : α) (b : β)
    (h : a' ≠ a) : assocFind ((a', b) :: l) a = assocFind l a := by
  simp [assocFind, List.find?, h]

theorem assocFind_eq_none {α β : Type} [DecidableEq α] {l : List (α × β)} {a : α} :
    assocFind l a = none → ∀ p ∈ l, p.1 ≠ a := by
  induction l with
  | nil => intro _ p hp; simp at hp
  | cons q t ih =>
    obtain ⟨qa, qb⟩ := q
    intro h p hp
    have hq : qa ≠ a := by
      intro hcontra
      rw [hcontra, assocFind_cons_self] at h
      simp at h
    rcases List.mem_cons.mp hp with rfl | hp
    · exact hq
    · exact ih (by rwa [assocFind_cons_ne t a qa qb hq] at h) p hp

theorem assocFind_mem {α β : Type} [DecidableEq α] {l : List (α × β)} {a : α} {b : β} :
    assocFind l a = some b → (a, b) ∈ l := by
  induction l with
  | nil => intro h; simp [assocFind] at h
  | cons q t ih =>
    obtain ⟨qa, qb⟩ := q
    intro h
    by_cases hq : qa = a
    · subst hq
      rw [assocFind_cons_self] at h
      rw [Option.some.injEq] at h
      rw [← h]
      exact List.mem_cons_self _ _
    · rw [assocFind_cons_ne t a qa qb hq] at h
      exact List.mem_cons_of_mem _ (ih h)

theorem mem_assocFind {α β : Type} [DecidableEq α] {l : List (α × β)} {a : α} {b : β} :
    (a, b) ∈ l → (l.map Prod.fst).Nodup → assocFind l a = some b := by
  induction l with
  | nil => intro hmem _; simp at hmem
  | cons q t ih =>
    obtain ⟨qa, qb⟩ := q
    intro hmem hnd
    rw [List.map_cons, List.nodup_cons] at hnd
    rcases List.mem_cons.mp hmem with heq | hmem
    · rw [Prod.mk.injEq] at heq
      rw [← heq.1, ← heq.2]
      exact assocFind_cons_self _ _ _
    · have hq : qa ≠ a := by
        intro hcontra
        have ha : a ∈ t.map Prod.fst := List.mem_map_of_mem Prod.fst hmem
        rw [hcontra] at hnd
        exact hnd.1 ha
      rw [assocFind_cons_ne t a qa qb hq]
      exact ih hmem hnd.2

theorem regInv_init : RegInv initRegistry := by
  constructor <;> simp [initRegistry, Registry.findInst]

theorem intern_eq_some {s : Registry} (k : TypeKey) (hc : s.nextCode < typecodeCeiling) :
    s.intern k = some (s.nextId, internedState s k) := by
  unfold Registry.intern autoincr
  rw [if_pos hc]

theorem intern_eq_none {s : Registry} (k : TypeKey) (hc : ¬ s.nextCode < typecodeCeiling) :
    s.intern k = none := by
  unfold Registry.intern autoincr
  rw [if_neg hc]

theorem construct_of_lookup_some {s : Registry} {k : TypeKey} {id : Nat}
    (hinv : RegInv s) (hl : s.lookup k = some id) :
    id ∈ s.live ∧ s.construct k = some (id, { s with nextId := s.nextId + 1 }) := by
  have hmem : (k, id) ∈ s.cache := assocFind_mem hl
  have hlive : id ∈ s.live := hinv.cache_live (k, id) hmem
  refine ⟨hlive, ?_⟩
  simp only [Registry.construct, hl]
  rw [if_pos hlive]

theorem construct_of_lookup_none {s : Registry} {k : TypeKey}
    (hl : s.lookup k = none) (hc : s.nextCode < typecodeCeiling) :
    s.construct k = some (s.nextId, internedState s k) := by
  simp only [Registry.construct, hl]
  exact intern_eq_some k hc

theorem construct_none_of_ceiling {s : Registry} {k : TypeKey}
    (hl : s.lookup k = none) (hc : ¬ s.nextCode < typecodeCeiling) :
    s.construct k = none := by
  simp only [Registry.construct, hl]
  exact intern_eq_none k hc

theorem findInst_internedState_self (s : Registry) (k : TypeKey) :
    (internedState s k).findInst s.nextId = some ⟨k, s.nextCode⟩ := by
  unfold internedState Registry.findInst
  exact assocFind_cons_self _ _ _

theorem findInst_internedState_ne {s : Registry} {id : Nat} (k : TypeKey)
    (h : id ≠ s.nextId) :
    (internedState s k).findInst id = s.findInst id := by
  unfold internedState Registry.findInst
  exact assocFind_cons_ne _ _ _ _ (fun hc => h hc.symm)

theorem regInv_internedState {s : Registry} {k : TypeKey}
    (hinv : RegInv s) (hnone : ∀ p ∈ s.cache, p.1 ≠ k) :
    RegInv (internedState s k) := by
  constructor
  case codes_lt =>
    intro p hp
    simp only [internedState] at hp ⊢
    rcases List.mem_cons.mp hp with rfl | hp
    · exact Nat.lt_succ_self _
    · exact Nat.lt_succ_of_lt (hinv.codes_lt p hp)
  case ids_lt =>
    intro p hp
    simp only [internedState] at hp ⊢
    rcases List.mem_cons.mp hp with rfl | hp
    · exact Nat.lt_succ_self _
    · exact Nat.lt_succ_of_lt (hinv.ids_lt p hp)
  case insts_anti =>
    simp only [internedState]
    refine List.pairwise_cons.mpr ⟨?_, hinv.insts_anti⟩
    intro b hb
    exact hinv.codes_lt b hb
  case insts_nodup =>
    simp only [internedState, List.map_cons]
    refine List.nodup_cons.mpr ⟨?_, hinv.insts_nodup⟩
    intro hmem
    rcases List.mem_map.mp hmem with ⟨p, hp, hfst⟩
    have hlt := hinv.ids_lt p hp
    rw [hfst] at hlt
    exact Nat.lt_irrefl _ hlt
  case live_nodup =>
    simp only [internedState]
    refine List.nodup_cons.mpr ⟨?_, hinv.live_nodup⟩
    intro hmem
    exact Nat.lt_irrefl _ (hinv.live_lt _ hmem)
  case live_lt =>
    intro id hid
    simp only [internedState] at hid ⊢
    rcases List.mem_cons.mp hid with rfl | hid
    · exact Nat.lt_succ_self _
    · exact Nat.lt_succ_of_lt (hinv.live_lt id hid)
  case live_insts =>
    intro id hid
    simp only [internedState] at hid
    rcases List.mem_cons.mp hid with rfl | hid
    · exact ⟨⟨k, s.nextCode⟩, findInst_internedState_self s k⟩
    · obtain ⟨t, ht⟩ := hinv.live_insts id hid
      have hne : id ≠ s.nextId := Nat.ne_of_lt (hinv.live_lt id hid)
      exact ⟨t, by rw [findInst_internedState_ne k hne]; exact ht⟩
  case cache_live =>
    intro p hp
    simp only [internedState] at hp ⊢
    rcases List.mem_cons.mp hp with rfl | hp
    · exact List.mem_cons_self _ _
    · exact List.mem_cons_of_mem _ (hinv.cache_live p hp)
  case cache_key =>
    intro p hp
    simp only [internedState] at hp
    rcases List.mem_cons.mp hp with rfl | hp
    · exact ⟨⟨k, s.nextCode⟩, findInst_internedState_self s k, rfl⟩
    · obtain ⟨t, ht, hk⟩ := hinv.cache_key p hp
      have hlt : p.2 < s.nextId := hinv.live_lt _ (hinv.cache_live p hp)
      exact ⟨t, by rw [findInst_internedState_ne k (Nat.ne_of_lt hlt)]; exact ht, hk⟩
  case live_cached =>
    intro id hid t ht
    simp only [internedState] at hid ⊢
    rcases List.mem_cons.mp hid with rfl | hid
    · have hsome := findInst_internedState_self s k
      rw [ht] at hsome
      have heq : t = ⟨k, s.nextCode⟩ := Option.some.inj hsome
      rw [heq]
      exact List.mem_cons_self _ _
    · have hne : id ≠ s.nextId := Nat.ne_of_lt (hinv.live_lt id hid)
      rw [findInst_internedState_ne k hne] at ht
      exact List.mem_cons_of_mem _ (hinv.live_cached id hid t ht)
  case cache_nodup =>
    simp only [internedState, List.map_cons]
    refine List.nodup_cons.mpr ⟨?_, hinv.cache_nodup⟩
    intro hmem
    rcases List.mem_map.mp hmem with ⟨p, hp, hfst⟩
    exact hnone p hp hfst

theorem regInv_bump {s : Registry} (hinv : RegInv s) :
    RegInv { s with nextId := s.nextId + 1 } := by
  constructor
  case codes_lt => exact hinv.codes_lt
  case ids_lt => exact fun p hp => Nat.lt_succ_of_lt (hinv.ids_lt p hp)
  case insts_anti => exact hinv.insts_anti
  case insts_nodup => exact hinv.insts_nodup
  case live_nodup => exact hinv.live_nodup
  case live_lt => exact fun id hid => Nat.lt_succ_of_lt (hinv.live_lt id hid)
  case live_insts => exact hinv.live_insts
  case cache_live => exact hinv.cache_live
  case cache_key => exact hinv.cache_key
  case live_cached => exact hinv.live_cached
  case cache_nodup => exact hinv.cache_nodup

theorem regInv_construct {s : Registry} {k : TypeKey} {id : Nat} {s' : Registry}
    (hinv : RegInv s) (h : s.construct k = some (id, s')) : RegInv s' := by
  cases hl : s.lookup k with
  | some orig =>
    obtain ⟨hlive, heq⟩ := construct_of_lookup_some hinv hl
    rw [heq] at h
    have h2 := Option.some.inj h
    rw [Prod.mk.injEq] at h2
    obtain ⟨rfl, rfl⟩ := h2
    exact regInv_bump hinv
  | none =>
    by_cases hc : s.nextCode < typecodeCeiling
    · rw [construct_of_lookup_none hl hc] at h
      have h2 := Option.some.inj h
      rw [Prod.mk.injEq] at h2
      obtain ⟨rfl, rfl⟩ := h2
      exact regInv_internedState hinv (assocFind_eq_none hl)
    · rw [construct_none_of_ceiling hl hc] at h
      exact absurd h (by simp)

theorem regInv_dispose {s : Registry} (hinv : RegInv s) (id : Nat) :
    RegInv (s.dispose id) := by
  constructor
  case codes_lt => exact hinv.codes_lt
  case ids_lt => exact hinv.ids_lt
  case insts_anti => exact hinv.insts_anti
  case insts_nodup => exact hinv.insts_nodup
  case live_nodup => exact hinv.live_nodup.erase id
  case live_lt =>
    intro i hi
    exact hinv.live_lt i (List.mem_of_mem_erase hi)
  case live_insts =>
    intro i hi
    exact hinv.live_insts i (List.mem_of_mem_erase hi)
  case cache_live =>
    intro p hp
    simp only [Registry.dispose] at hp ⊢
    obtain ⟨hp1, hp2⟩ := List.mem_filter.mp hp
    have hne : p.2 ≠ id := of_decide_eq_true hp2
    exact (List.mem_erase_of_ne hne).mpr (hinv.cache_live p hp1)
  case cache_key =>
    intro p hp
    simp only [Registry.dispose] at hp
    exact hinv.cache_key p (List.mem_filter.mp hp).1
  case live_cached =>
    intro i hi t ht
    simp only [Registry.dispose] at hi ⊢
    have himem : i ∈ s.live := List.mem_of_mem_erase hi
    have hine : i ≠ id := (List.Nodup.mem_erase_iff hinv.live_nodup).mp hi |>.1
    refine List.mem_filter.mpr ⟨hinv.live_cached i himem t ht, ?_⟩
    exact decide_eq_true hine
  case cache_nodup =>
    simp only [Registry.dispose]
    exact ((List.filter_sublist s.cache).map Prod.fst).nodup hinv.cache_nodup

theorem regInv_step {s : Registry} (hinv : RegInv s) (e : Event) :
    RegInv (s.step e) := by
  cases e with
  | construct k =>
    simp only [Registry.step]
    cases h : s.construct k with
    | some r =>
      obtain ⟨i, s'⟩ := r
      exact regInv_construct hinv h
    | none => exact hinv
  | dispose id => exact regInv_dispose hinv id

theorem regInv_runFrom {s : Registry} (hinv : RegInv s) (es : List Event) :
    RegInv (s.runFrom es) := by
  induction es generalizing s with
  | nil => exact hinv
  | cons e es ih => exact ih (regInv_step hinv e)

theorem regInv_run (es : List Event) : RegInv (Registry.run es) :=
  regInv_runFrom regInv_init es

theorem intern_some_eq {s : Registry} {k : TypeKey} {id : Nat} {s' : Registry}
    (h : s.intern k = some (id, s')) :
    s.nextCode < typecodeCeiling ∧ id = s.nextId ∧ s' = internedState s k := by
  by_cases hc : s.nextCode < typecodeCeiling
  · rw [intern_eq_some k hc] at h
    have h2 := Option.some.inj h
    rw [Prod.mk.injEq] at h2
    exact ⟨hc, h2.1.symm, h2.2.symm⟩
  · rw [intern_eq_none k hc] at h
    exact absurd h (by simp)

theorem construct_some_cases {s : Registry} {k : TypeKey} {id : Nat} {s' : Registry}
    (h : s.construct k = some (id, s')) :
    (s' = { s with nextId := s.nextId + 1 } ∧ id ∈ s.live) ∨
    (s' = internedState s k ∧ id = s.nextId ∧ s.nextCode < typecodeCeiling) := by
  cases hl : s.lookup k with
  | some orig =>
    simp only [Registry.construct, hl] at h
    by_cases ho : orig ∈ s.live
    · rw [if_pos ho] at h
      have h2 := Option.some.inj h
      rw [Prod.mk.injEq] at h2
      obtain ⟨rfl, rfl⟩ := h2
      exact Or.inl ⟨rfl, ho⟩
    · rw [if_neg ho] at h
      obtain ⟨hc, rfl, rfl⟩ := intern_some_eq h
      exact Or.inr ⟨rfl, rfl, hc⟩
  | none =>
    simp only [Registry.construct, hl] at h
    obtain ⟨hc, rfl, rfl⟩ := intern_some_eq h
    exact Or.inr ⟨rfl, rfl, hc⟩

theorem construct_some_nextId {s : Registry} {k : TypeKey} {id : Nat} {s' : Registry}
    (h : s.construct k = some (id, s')) : s'.nextId = s.nextId + 1 := by
  rcases construct_some_cases h with ⟨rfl, _⟩ | ⟨rfl, _, _⟩ <;> rfl

theorem findInst_construct {s : Registry} {k : TypeKey} {id2 : Nat} {s' : Registry}
    (hinv : RegInv s) (h : s.construct k = some (id2, s')) {id : Nat} {t : TypeInst}
    (hf : s.findInst id = some t) : s'.findInst id = some t := by
  rcases construct_some_cases h with ⟨rfl, _⟩ | ⟨rfl, _, _⟩
  · exact hf
  · have hlt : id < s.nextId := hinv.ids_lt (id, t) (assocFind_mem hf)
    rw [findInst_internedState_ne k (Nat.ne_of_lt hlt)]
    exact hf

theorem findInst_step {s : Registry} (hinv : RegInv s) {id : Nat} {t : TypeInst}
    (hf : s.findInst id = some t) (e : Event) : (s.step e).findInst id = some t := by
  cases e with
  | construct k =>
    simp only [Registry.step]
    cases h : s.construct k with
    | some r =>
      obtain ⟨i, s'⟩ := r
      exact findInst_construct hinv h hf
    | none => exact hf
  | dispose i => exact hf

theorem findInst_runFrom {s : Registry} (hinv : RegInv s) {id : Nat} {t : TypeInst}
    (hf : s.findInst id = some t) (es : List Event) :
    (s.runFrom es).findInst id = some t := by
  induction es generalizing s with
  | nil => exact hf
  | cons e es ih => exact ih (regInv_step hinv e) (findInst_step hinv hf e)

theorem nextId_mono_step (s : Registry) (e : Event) : s.nextId ≤ (s.step e).nextId := by
  cases e with
  | construct k =>
    simp only [Registry.step]
    cases h : s.construct k with
    | some r =>
      obtain ⟨i, s'⟩ := r
      rw [construct_some_nextId h]
      exact Nat.le_succ _
    | none => exact Nat.le_refl _
  | dispose id => exact Nat.le_refl _

theorem not_interned_step {s : Registry} {n : Nat}
    (h1 : ∀ p ∈ s.insts, p.1 ≠ n) (h2 : n < s.nextId) (e : Event) :
    (∀ p ∈ (s.step e).insts, p.1 ≠ n) ∧ n < (s.step e).nextId := by
  have hmono := nextId_mono_step s e
  refine ⟨?_, Nat.lt_of_lt_of_le h2 hmono⟩
  cases e with
  | construct k =>
    simp only [Registry.step]
    cases h : s.construct k with
    | some r =>
      obtain ⟨i, s'⟩ := r
      rcases construct_some_cases h with ⟨rfl, _⟩ | ⟨rfl, _, _⟩
      · exact h1
      · intro p hp
        simp only [internedState] at hp
        rcases List.mem_cons.mp hp with rfl | hp
        · exact Nat.ne_of_gt h2
        · exact h1 p hp
    | none => exact h1
  | dispose id => exact h1

theorem not_interned_runFrom {s : Registry} {n : Nat}
    (h1 : ∀ p ∈ s.insts, p.1 ≠ n) (h2 : n < s.nextId) (es : List Event) :
    ∀ p ∈ (s.runFrom es).insts, p.1 ≠ n := by
  induction es generalizing s with
  | nil => exact h1
  | cons e es ih =>
    obtain ⟨h1', h2'⟩ := not_interned_step h1 h2 e
    exact ih h1' h2'

theorem construct_of_live {s : Registry} (hinv : RegInv s) {id : Nat} {t : TypeInst}
    (hlive : id ∈ s.live) (hfind : s.findInst id = some t) :
    s.construct t.key = some (id, { s with nextId := s.nextId + 1 }) := by
  have hcached : (t.key, id) ∈ s.cache := hinv.live_cached id hlive t hfind
  have hl : s.lookup t.key = some id := mem_assocFind hcached hinv.cache_nodup
  exact (construct_of_lookup_some hinv hl).2

theorem construct_returns {s : Registry} (hinv : RegInv s) {k : TypeKey} {id : Nat}
    {s' : Registry} (h : s.construct k = some (id, s')) :
    id ∈ s'.live ∧ ∃ t, s'.findInst id = some t ∧ t.key = k := by
  cases hl : s.lookup k with
  | some orig =>
    obtain ⟨hlive, heq⟩ := construct_of_lookup_some hinv hl
    rw [heq] at h
    have h2 := Option.some.inj h
    rw [Prod.mk.injEq] at h2
    obtain ⟨rfl, rfl⟩ := h2
    obtain ⟨t, ht, hk⟩ := hinv.cache_key (k, orig) (assocFind_mem hl)
    exact ⟨hlive, t, ht, hk⟩
  | none =>
    by_cases hc : s.nextCode < typecodeCeiling
    · rw [construct_of_lookup_none hl hc] at h
      have h2 := Option.some.inj h
      rw [Prod.mk.injEq] at h2
      obtain ⟨rfl, rfl⟩ := h2
      exact ⟨List.mem_cons_self _ _, ⟨k, s.nextCode⟩, findInst_internedState_self s k, rfl⟩
    · rw [construct_none_of_ceiling hl hc] at h
      exact absurd h (by simp)

theorem dispose_lookup_none {s : Registry} (hinv : RegInv s) {id : Nat} {t : TypeInst}
    (hlive : id ∈ s.live) (hfind : s.findInst id = some t) :
    (s.dispose id).lookup t.key = none := by
  cases hl : (s.dispose id).lookup t.key with
  | none => rfl
  | some j =>
    exfalso
    have hmem : (t.key, j) ∈ (s.dispose id).cache := assocFind_mem hl
    simp only [Registry.dispose] at hmem
    obtain ⟨hmem1, hdec⟩ := List.mem_filter.mp hmem
    have hjne : j ≠ id := of_decide_eq_true hdec
    have hcached : (t.key, id) ∈ s.cache := hinv.live_cached id hlive t hfind
    have h1 := mem_assocFind hcached hinv.cache_nodup
    have h2 := mem_assocFind hmem1 hinv.cache_nodup
    rw [h1] at h2
    exact hjne (Option.some.inj h2).symm

theorem runFresh_spec : ∀ n, n ≤ typecodeCeiling →
    (runFresh n).nextCode = n ∧ (runFresh n).nextId = n ∧
    (∀ p ∈ (runFresh n).cache, p.1.keyval < n) := by
  intro n
  induction n with
  | zero =>
    intro _
    refine ⟨rfl, rfl, ?_⟩
    intro p hp
    simp [runFresh, initRegistry] at hp
  | succ m ih =>
    intro hle
    obtain ⟨hcode, hid, hcache⟩ := ih (Nat.le_of_succ_le hle)
    have hlk : (runFresh m).lookup (freshKey m) = none := by
      cases hl : (runFresh m).lookup (freshKey m) with
      | none => rfl
      | some j =>
        exfalso
        have hmem := assocFind_mem hl
        have hlt := hcache _ hmem
        simp [freshKey] at hlt
    have hc : (runFresh m).nextCode < typecodeCeiling := by
      rw [hcode]
      exact Nat.lt_of_succ_le hle
    have hstep : runFresh (m + 1) = internedState (runFresh m) (freshKey m) := by
      show (runFresh m).step (Event.construct (freshKey m)) = _
      simp only [Registry.step, construct_of_lookup_none hlk hc]
    rw [hstep]
    refine ⟨?_, ?_, ?_⟩
    · simp only [internedState]
      rw [hcode]
    · simp only [internedState]
      rw [hid]
    · intro p hp
      simp only [internedState] at hp
      rcases List.mem_cons.mp hp with rfl | hp
      · exact Nat.lt_succ_self m
      · exact Nat.lt_succ_of_lt (hcache p hp)

theorem runFresh_lookup_none {n : Nat} (hle : n ≤ typecodeCeiling) :
    (runFresh n).lookup (freshKey n) = none := by
  obtain ⟨_, _, hcache⟩ := runFresh_spec n hle
  cases hl : (runFresh n).lookup (freshKey n) with
  | none => rfl
  | some j =>
    exfalso
    have hlt := hcache _ (assocFind_mem hl)
    simp [freshKey] at hlt

/-- Claim C1: for every concrete variant, a construction request whose
arguments produce a key equal to that of an existing canonical instance
returns that identical (reference-equal) instance, provided the canonical
instance is still externally owned (live) at the time of the request; the
provisional instance is discarded (only the object-id counter advances). -/
theorem claim1_interned_identity (es1 : List Event) (k : TypeKey) (id1 : Nat)
    (s1 : Registry) (h1 : (Registry.run es1).construct k = some (id1, s1))
    (es2 : List Event) (hlive : id1 ∈ (s1.runFrom es2).live) :
    (s1.runFrom es2).construct k =
      some (id1, { s1.runFrom es2 with nextId := (s1.runFrom es2).nextId + 1 }) := by
  have hinv0 := regInv_run es1
  have hinv1 : RegInv s1 := regInv_construct hinv0 h1
  obtain ⟨hl1, t, ht, hk⟩ := construct_returns hinv0 h1
  have hinv2 := regInv_runFrom hinv1 es2
  have ht2 := findInst_runFrom hinv1 ht es2
  rw [← hk]
  exact construct_of_live hinv2 hlive ht2

/-- Witness for C1: construct key (0,0) from the pristine registry, then a
second construction of the same key returns the same instance id 0. -/
theorem claim1_interned_identity_witness :
    (Registry.runFrom (⟨1, 1, [(0, ⟨⟨0, 0⟩, 0⟩)], [0], [(⟨0, 0⟩, 0)]⟩ : Registry) []).construct
        ⟨0, 0⟩ =
      some (0,
        { Registry.runFrom (⟨1, 1, [(0, ⟨⟨0, 0⟩, 0⟩)], [0], [(⟨0, 0⟩, 0)]⟩ : Registry) [] with
          nextId :=
            (Registry.runFrom (⟨1, 1, [(0, ⟨⟨0, 0⟩, 0⟩)], [0], [(⟨0, 0⟩, 0)]⟩ :
              Registry) []).nextId + 1 }) :=
  claim1_interned_identity [] ⟨0, 0⟩ 0 ⟨1, 1, [(0, ⟨⟨0, 0⟩, 0⟩)], [0], [(⟨0, 0⟩, 0)]⟩
    (by decide) [] (by decide)

/-- Claim C2: descriptor equality holds exactly for same concrete variant
with equal keys; equality implies equal hashes (for any hash function on
keys); descriptors of different concrete variants are never equal. -/
theorem claim2_eq_hash_protocol (a b : TypeKey) (h : Nat → Nat) :
    (type_eq a b = true ↔ a.variant = b.variant ∧ a.keyval = b.keyval) ∧
    (type_eq a b = true → type_hash h a = type_hash h b) ∧
    (a.variant ≠ b.variant → type_eq a b = false) := by
  refine ⟨?_, ?_, ?_⟩
  · simp [type_eq]
  · intro he
    simp [type_eq] at he
    simp [type_hash, he.2]
  · intro hv
    simp [type_eq, hv]

/-- Witness for C2: equal-variant equal-key descriptors hash alike, and
cross-variant descriptors with the same key value compare unequal. -/
theorem claim2_eq_hash_protocol_witness :
    type_hash (fun n => n + 3) ⟨0, 5⟩ = type_hash (fun n => n + 3) ⟨0, 5⟩ ∧
    type_eq ⟨0, 5⟩ ⟨1, 5⟩ = false :=
  ⟨(claim2_eq_hash_protocol ⟨0, 5⟩ ⟨0, 5⟩ (fun n => n + 3)).2.1 (by decide),
   (claim2_eq_hash_protocol ⟨0, 5⟩ ⟨1, 5⟩ (fun n => n + 3)).2.2 (by decide)⟩

/-- Claim C3: finalization history carries strictly increasing codes
(newest entry first, so codes strictly decrease along the list); a
construction that hits a live canonical instance returns it while mutating
only the object-id counter — no code is drawn — and its discarded
provisional instance (object id nextId) never appears among finalized
instances at any later point; a code, once assigned, never changes. -/
theorem claim3_code_assignment (es : List Event) :
    (Registry.run es).insts.Pairwise (fun a b => b.2.code < a.2.code) ∧
    (∀ k id, (Registry.run es).lookup k = some id →
      (Registry.run es).construct k =
        some (id, { Registry.run es with nextId := (Registry.run es).nextId + 1 }) ∧
      ∀ es2 p,
        p ∈ (Registry.runFrom
              { Registry.run es with nextId := (Registry.run es).nextId + 1 } es2).insts →
        p.1 ≠ (Registry.run es).nextId) ∧
    (∀ id t, (Registry.run es).findInst id = some t →
      ∀ es2, (Registry.runFrom (Registry.run es) es2).findInst id = some t) := by
  have hinv := regInv_run es
  refine ⟨hinv.insts_anti, ?_, ?_⟩
  · intro k id hl
    refine ⟨(construct_of_lookup_some hinv hl).2, ?_⟩
    intro es2 p hp
    refine not_interned_runFrom ?_ ?_ es2 p hp
    · intro q hq
      exact Nat.ne_of_lt (hinv.ids_lt q hq)
    · exact Nat.lt_succ_self _
  · intro id t hf es2
    exact findInst_runFrom hinv hf es2

/-- Witness for C3: after interning key (0,0), a second construction of the
same key returns instance 0 and leaves the code counter untouched. -/
theorem claim3_code_assignment_witness :
    (Registry.run [Event.construct ⟨0, 0⟩]).construct ⟨0, 0⟩ =
      some (0, { Registry.run [Event.construct ⟨0, 0⟩] with
                 nextId := (Registry.run [Event.construct ⟨0, 0⟩]).nextId + 1 }) :=
  ((claim3_code_assignment [Event.construct ⟨0, 0⟩]).2.1 ⟨0, 0⟩ 0 (by decide)).1

/-- Claim C4: at every reachable state, no two distinct live instances
carry the same code. -/
theorem claim4_live_codes_unique (es : List Event) (id1 id2 : Nat) (t1 t2 : TypeInst)
    (h1 : id1 ∈ (Registry.run es).live) (h2 : id2 ∈ (Registry.run es).live)
    (hne : id1 ≠ id2)
    (f1 : (Registry.run es).findInst id1 = some t1)
    (f2 : (Registry.run es).findInst id2 = some t2) :
    t1.code ≠ t2.code := by
  have hinv := regInv_run es
  have m1 : (id1, t1) ∈ (Registry.run es).insts := assocFind_mem f1
  have m2 : (id2, t2) ∈ (Registry.run es).insts := assocFind_mem f2
  have hpw : (Registry.run es).insts.Pairwise (fun a b => a.2.code ≠ b.2.code) :=
    hinv.insts_anti.imp (fun h => Nat.ne_of_gt h)
  have hsym : Symmetric (fun a b : Nat × TypeInst => a.2.code ≠ b.2.code) :=
    fun _ _ h => Ne.symm h
  have hpne : (id1, t1) ≠ (id2, t2) := fun hEq => hne (congrArg Prod.fst hEq)
  exact List.Pairwise.forall hsym hpw m1 m2 hpne

/-- Witness for C4: after interning keys (0,0) and (0,1), the two live
instances 0 and 1 carry the distinct codes 0 and 1. -/
theorem claim4_live_codes_unique_witness :
    (⟨⟨0, 0⟩, 0⟩ : TypeInst).code ≠ (⟨⟨0, 1⟩, 1⟩ : TypeInst).code :=
  claim4_live_codes_unique [Event.construct ⟨0, 0⟩, Event.construct ⟨0, 1⟩] 0 1
    ⟨⟨0, 0⟩, 0⟩ ⟨⟨0, 1⟩, 1⟩ (by decide) (by decide) (by decide) (by decide) (by decide)

/-- Claim C5: the first 2^32 distinct-key construction requests all
succeed, and the very next distinct-key construction request fails fatally
on the counter assertion — exactly at the ceiling. -/
theorem claim5_ceiling_abort :
    (∀ i, i < typecodeCeiling →
      (runFresh i).construct (freshKey i) =
        some ((runFresh i).nextId, internedState (runFresh i) (freshKey i))) ∧
    (runFresh typecodeCeiling).construct (freshKey typecodeCeiling) = none := by
  constructor
  · intro i hi
    refine construct_of_lookup_none (runFresh_lookup_none (Nat.le_of_lt hi)) ?_
    rw [(runFresh_spec i (Nat.le_of_lt hi)).1]
    exact hi
  · refine construct_none_of_ceiling (runFresh_lookup_none (Nat.le_refl _)) ?_
    rw [(runFresh_spec typecodeCeiling (Nat.le_refl _)).1]
    exact Nat.lt_irrefl _

/-- Witness for C5: the very first distinct-key construction succeeds. -/
theorem claim5_ceiling_abort_witness :
    (runFresh 0).construct (freshKey 0) =
      some ((runFresh 0).nextId, internedState (runFresh 0) (freshKey 0)) :=
  claim5_ceiling_abort.1 0 (by decide)

/-- Claim C6: indexing derives an Array request with the descriptor itself
as dtype; a single slice with step exactly 1 gives rank 1, layout C, any
other single step gives rank 1, layout A; a nonempty tuple of slices gives
rank equal to the slice count with layout F when the first step is 1,
otherwise C when the last step is 1, otherwise A; any other index gives
rank 1, layout A. -/
theorem claim6_getitem_spec (self : TypeKey) :
    (∀ s : Slice, s.step = some 1 →
      type_getitem self (IndexArg.single s) = some ⟨self, 1, Layout.C⟩) ∧
    (∀ s : Slice, s.step ≠ some 1 →
      type_getitem self (IndexArg.single s) = some ⟨self, 1, Layout.A⟩) ∧
    (∀ (first last : Slice) (rest : List Slice),
      (first :: rest).getLast? = some last →
      (first.step = some 1 →
        type_getitem self (IndexArg.tupleOf (first :: rest)) =
          some ⟨self, (first :: rest).length, Layout.F⟩) ∧
      (first.step ≠ some 1 → last.step = some 1 →
        type_getitem self (IndexArg.tupleOf (first :: rest)) =
          some ⟨self, (first :: rest).length, Layout.C⟩) ∧
      (first.step ≠ some 1 → last.step ≠ some 1 →
        type_getitem self (IndexArg.tupleOf (first :: rest)) =
          some ⟨self, (first :: rest).length, Layout.A⟩)) ∧
    (type_getitem self IndexArg.other = some ⟨self, 1, Layout.A⟩) := by
  refine ⟨?_, ?_, ?_, rfl⟩
  · intro s hs
    simp [type_getitem, determine_array_spec, hs]
  · intro s hs
    simp [type_getitem, determine_array_spec, hs]
  · intro first last rest hlast
    refine ⟨?_, ?_, ?_⟩
    · intro hf
      simp [type_getitem, determine_array_spec, hlast, hf]
    · intro hf hl
      simp [type_getitem, determine_array_spec, hlast, hf, hl]
    · intro hf hl
      simp [type_getitem, determine_array_spec, hlast, hf, hl]

/-- Witness for C6: indexing with the two-slice tuple (step=1, step=2)
yields rank 2, layout F. -/
theorem claim6_getitem_spec_witness :
    type_getitem ⟨0, 0⟩
        (IndexArg.tupleOf [⟨none, none, some 1⟩, ⟨none, none, some 2⟩]) =
      some ⟨⟨0, 0⟩, 2, Layout.F⟩ :=
  ((claim6_getitem_spec ⟨0, 0⟩).2.2.1 ⟨none, none, some 1⟩ ⟨none, none, some 2⟩
      [⟨none, none, some 2⟩] (by decide)).1 (by decide)

/-- Claim C7: calling a descriptor with exactly one argument that is not a
type descriptor delegates to cast_python_value on that argument; whenever
at least one argument is a type descriptor, the call builds a signature
whose return type is the descriptor itself and whose parameters are the
arguments in order. -/
theorem claim7_call_facade (self : TypeKey) (args : List PyVal) :
    (∀ v, args = [PyVal.nontyp v] → type_call self args = CallResult.cast v) ∧
    ((∃ a ∈ args, is_type a = true) →
      type_call self args = CallResult.sig self args) := by
  constructor
  · intro v hv
    rw [hv]
    rfl
  · intro hex
    obtain ⟨a, ha, hta⟩ := hex
    cases args with
    | nil => cases ha
    | cons x xs =>
      cases xs with
      | nil =>
        cases x with
        | typ k => rfl
        | nontyp v =>
          have haeq : a = PyVal.nontyp v := by
            rcases List.mem_cons.mp ha with rfl | hc
            · rfl
            · cases hc
          rw [haeq] at hta
          simp [is_type] at hta
      | cons y ys =>
        cases x with
        | typ k => rfl
        | nontyp v => rfl

/-- Witness for C7: calling with the single non-type value 7 casts it, and
calling with a single type argument builds a one-parameter signature. -/
theorem claim7_call_facade_witness :
    type_call ⟨0, 0⟩ [PyVal.nontyp 7] = CallResult.cast 7 ∧
    type_call ⟨0, 0⟩ [PyVal.typ ⟨1, 1⟩] =
      CallResult.sig ⟨0, 0⟩ [PyVal.typ ⟨1, 1⟩] :=
  ⟨(claim7_call_facade ⟨0, 0⟩ [PyVal.nontyp 7]).1 7 rfl,
   (claim7_call_facade ⟨0, 0⟩ [PyVal.typ ⟨1, 1⟩]).2
     ⟨PyVal.typ ⟨1, 1⟩, List.mem_cons_self _ _, rfl⟩⟩

/-- Claim C8: disposing a live canonical instance purges its registry
entry, and the next construction request for the same key succeeds (room
in the counter assumed), producing an instance with a fresh object id —
distinct from the disposed one — bearing the same key and a strictly
higher code. -/
theorem claim8_reclamation (es : List Event) (id : Nat) (t : TypeInst)
    (hlive : id ∈ (Registry.run es).live)
    (hfind : (Registry.run es).findInst id = some t)
    (hroom : (Registry.run es).nextCode < typecodeCeiling) :
    ((Registry.run es).dispose id).lookup t.key = none ∧
    ((Registry.run es).dispose id).construct t.key =
      some (((Registry.run es).dispose id).nextId,
        internedState ((Registry.run es).dispose id) t.key) ∧
    (internedState ((Registry.run es).dispose id) t.key).findInst
        ((Registry.run es).dispose id).nextId =
      some ⟨t.key, ((Registry.run es).dispose id).nextCode⟩ ∧
    ((Registry.run es).dispose id).nextId ≠ id ∧
    t.code < ((Registry.run es).dispose id).nextCode := by
  have hinv := regInv_run es
  have hpurge := dispose_lookup_none hinv hlive hfind
  refine ⟨hpurge, ?_, ?_, ?_, ?_⟩
  · exact construct_of_lookup_none hpurge hroom
  · exact findInst_internedState_self _ _
  · exact Ne.symm (Nat.ne_of_lt (hinv.live_lt id hlive))
  · exact hinv.codes_lt (id, t) (assocFind_mem hfind)

/-- Witness for C8: intern key (0,0) as instance 0, dispose it; the next
construction of key (0,0) yields the distinct instance 1. -/
theorem claim8_reclamation_witness :
    ((Registry.run [Event.construct ⟨0, 0⟩]).dispose 0).construct ⟨0, 0⟩ =
      some (((Registry.run [Event.construct ⟨0, 0⟩]).dispose 0).nextId,
        internedState ((Registry.run [Event.construct ⟨0, 0⟩]).dispose 0) ⟨0, 0⟩) ∧
    ((Registry.run [Event.construct ⟨0, 0⟩]).dispose 0).nextId ≠ 0 ∧
    (0 : Nat) < ((Registry.run [Event.construct ⟨0, 0⟩]).dispose 0).nextCode := by
  have h := claim8_reclamation [Event.construct ⟨0, 0⟩] 0 ⟨⟨0, 0⟩, 0⟩
    (by decide) (by decide) (by decide)
  exact ⟨h.2.1, h.2.2.2.1, h.2.2.2.2⟩

/-- Claim C9: for every IteratorType instance, the iterator_type property
returns the instance itself: IteratorType.__init__ stores
self._iterator_type = self, whatever name and yield type the concrete
subclass supplies. -/
theorem claim9_iterator_fixed_point (self name : Nat) (yld : TypeKey) :
    iterator_type (iteratorType_init self name yld) = self := rfl

/-- Claim C10: when both the first and the last slice of a tuple have step
1, the first-slice rule wins and the layout is F. -/
theorem claim10_first_rule_precedence (self : TypeKey) (first last : Slice)
    (rest : List Slice) (hlast : (first :: rest).getLast? = some last)
    (h1 : first.step = some 1) (h2 : last.step = some 1) :
    type_getitem self (IndexArg.tupleOf (first :: rest)) =
      some ⟨self, (first :: rest).length, Layout.F⟩ := by
  simp [type_getitem, determine_array_spec, hlast, h1]

/-- Witness for C10: the tuple (step=1, step=1) yields layout F. -/
theorem claim10_first_rule_precedence_witness :
    type_getitem ⟨0, 0⟩
        (IndexArg.tupleOf [⟨none, none, some 1⟩, ⟨none, none, some 1⟩]) =
      some ⟨⟨0, 0⟩, 2, Layout.F⟩ :=
  claim10_first_rule_precedence ⟨0, 0⟩ ⟨none, none, some 1⟩ ⟨none, none, some 1⟩
    [⟨none, none, some 1⟩] (by decide) (by decide) (by decide)
